import Mathlib

/-!
Verification development for the jschema.dev schema-relationship graph engine.

The definitions below are a shallow embedding of the TypeScript modules
`src/utils/schemaRelationships.ts` (reference extraction, relative-path
resolution, entity classification, graph construction) and
`src/utils/graphUtils.ts` (layout orchestration).  JSON values are modelled
by the inductive `Json`; JavaScript string operations (`split`, `substring`
up to `lastIndexOf`, `endsWith`, `startsWith`, `includes`) are modelled on
the character list underlying a `String`.  JavaScript truthiness is
modelled by `jsTruthy`.
-/

/-- A JSON value: the dynamic documents the engine traverses. -/
inductive Json where
  | null
  | bool (b : Bool)
  | num (n : Int)
  | str (s : String)
  | arr (elems : List Json)
  | obj (fields : List (String × Json))

/-- JavaScript truthiness of a JSON value (`null`, `false`, `0`, `""` are falsy). -/
def jsTruthy : Json → Bool
  | .null => false
  | .bool b => b
  | .num n => n != 0
  | .str s => s != ""
  | .arr _ => true
  | .obj _ => true

/-- `typeof v === 'object' && v !== null` for a JSON value: arrays and objects. -/
def isObjLike : Json → Bool
  | .arr _ => true
  | .obj _ => true
  | _ => false

/-- Property lookup on an object's field list (first binding wins, as in JS). -/
def lookupField (fs : List (String × Json)) (k : String) : Option Json :=
  match fs.find? (fun kv => kv.1 == k) with
  | some kv => some kv.2
  | none => none

/-- Property access `j[k]` on a JSON value; `none` models `undefined`. -/
def jsField (j : Json) (k : String) : Option Json :=
  match j with
  | .obj fs => lookupField fs k
  | _ => none

/-- JS `String.prototype.split` on a single character, over the character list. -/
def splitChars (c : Char) : List Char → List (List Char)
  | [] => [[]]
  | x :: xs =>
    let r := splitChars c xs
    if x = c then [] :: r
    else
      match r with
      | h :: t => (x :: h) :: t
      | [] => [[x]]

/-- JS `s.split(c)` returning strings. -/
def jsSplit (s : String) (c : Char) : List String :=
  (splitChars c s.data).map String.mk

/-- JS `s.endsWith(suffix)`. -/
def jsEndsWith (s suffix : String) : Bool :=
  suffix.data.isSuffixOf s.data

/-- JS `s.startsWith(pre)`. -/
def jsStartsWith (s pre : String) : Bool :=
  pre.data.isPrefixOf s.data

/-- JS `s.includes(c)` for a single character. -/
def jsContainsChar (s : String) (c : Char) : Bool :=
  s.data.contains c

/-- Characters strictly before the last `'/'`; `[]` when there is no `'/'`.
Models JS `s.substring(0, s.lastIndexOf('/'))`. -/
def takeToLastSlash (l : List Char) : List Char :=
  ((l.reverse.dropWhile (fun c => c ≠ '/')).drop 1).reverse

/-- JS `s.substring(0, s.lastIndexOf('/'))` (empty when `s` has no slash). -/
def baseDirOf (s : String) : String :=
  String.mk (takeToLastSlash s.data)

/-- The capture of `/^([^#]+)/`: the maximal prefix before any `'#'`. -/
def refFilePart (s : String) : String :=
  String.mk (s.data.takeWhile (fun c => c ≠ '#'))

/-- The segment fold of `resolveRelativePath`: `..` pops, `.` is a no-op,
anything else is pushed. -/
def resolveSegments (baseParts relParts : List String) : List String :=
  relParts.foldl
    (fun acc part =>
      if part = ".." then acc.dropLast
      else if part = "." then acc
      else acc ++ [part])
    baseParts

/-- JS `parts.join('/')`. -/
def joinSlash : List String → String
  | [] => ""
  | [p] => p
  | p :: ps => p ++ "/" ++ joinSlash ps

/-- `resolveRelativePath` from `schemaRelationships.ts`: resolve a `./`- or
`../`-style reference against the directory of `basePath`. -/
def resolveRelativePath (basePath relativePath : String) : String :=
  let baseDir := baseDirOf basePath
  let baseParts := (jsSplit baseDir '/').filter (fun p => p ≠ "")
  let relParts := (jsSplit relativePath '/').filter (fun p => p ≠ "")
  joinSlash (resolveSegments baseParts relParts)

/-- Cardinality / edge classification labels used by the engine. -/
inductive RelType where
  | one_to_one
  | one_to_many
  | multiple
deriving DecidableEq, Repr

/-- `SchemaRelationship` from `schemaRelationships.ts` (`from` and `to` are spelled
`from_` and `to_` because both are reserved tokens in Lean). -/
structure SchemaRelationship where
  from_ : String
  to_ : String
  refPath : String
  type : RelType
  propertyName : String
deriving DecidableEq, Repr

/-- The ref-path normalisation applied inside `extractSchemaReferences`
(lines 39-44): relative refs are resolved, bare names get the document's
directory prepended, slash-containing refs are used as-is. -/
def resolveRef (schemaName refPath : String) : String :=
  if jsStartsWith refPath "../" || jsStartsWith refPath "./" then
    resolveRelativePath schemaName refPath
  else if !(jsContainsChar refPath '/') then
    let baseDir := baseDirOf schemaName
    if baseDir ≠ "" then baseDir ++ "/" ++ refPath else refPath
  else refPath

/-- The `$ref` check at the head of `traverse`: a truthy string `$ref` whose
part before `#` is non-empty and ends in `.json` yields one relationship. -/
def refPart (schemaName : String) (fs : List (String × Json)) (pn : String)
    (pia : Bool) : List SchemaRelationship :=
  match lookupField fs "$ref" with
  | some (.str s) =>
    if s ≠ "" then
      let m := refFilePart s
      if m ≠ "" ∧ jsEndsWith m ".json" then
        [⟨schemaName, resolveRef schemaName m, s,
          if pia then .one_to_many else .one_to_one, pn⟩]
      else []
    else []
  | _ => []

/-- `obj.type === 'array'` on a field list. -/
def typeIsArray (fs : List (String × Json)) : Bool :=
  match lookupField fs "type" with
  | some (.str s) => s == "array"
  | _ => false

mutual
/-- The recursive `traverse` of `extractSchemaReferences`: arguments are the
current value, the (never-changing) `path`, the `propertyName`, and the
`parentIsArray` flag. -/
def extractTraverse (schemaName : String) :
    Json → String → String → Bool → List SchemaRelationship
  | .null, _, _, _ => []
  | .bool _, _, _, _ => []
  | .num _, _, _, _ => []
  | .str _, _, _, _ => []
  | .arr es, path, _, _ => extractElems schemaName es path 0
  | .obj fs, path, pn, pia =>
      refPart schemaName fs pn pia ++
      extractItems schemaName (typeIsArray fs) fs path pn ++
      extractFields schemaName fs path

/-- The `obj.type === 'array' && obj.items` branch: find the `items` binding
and traverse it with the array flag set, provided the owner's type is
`"array"` and the `items` value is truthy. -/
def extractItems (schemaName : String) (isArr : Bool) :
    List (String × Json) → String → String → List SchemaRelationship
  | [], _, _ => []
  | (k, v) :: fs, path, pn =>
      if k = "items" then
        (if isArr && jsTruthy v then extractTraverse schemaName v path pn true
         else [])
      else extractItems schemaName isArr fs path pn

/-- The `Object.entries(obj).forEach` loop over an object's fields: every
object-typed value except under the key `items` is traversed with the field
name as `propertyName` and the array flag cleared. -/
def extractFields (schemaName : String) :
    List (String × Json) → String → List SchemaRelationship
  | [], _ => []
  | (k, v) :: fs, path =>
      (if isObjLike v && k != "items" then
        extractTraverse schemaName v path k false
       else []) ++
      extractFields schemaName fs path

/-- The `Object.entries` loop when the traversed value is a JSON array: the
keys are the decimal index strings. -/
def extractElems (schemaName : String) :
    List Json → String → Nat → List SchemaRelationship
  | [], _, _ => []
  | v :: vs, path, i =>
      (if isObjLike v && toString i != "items" then
        extractTraverse schemaName v path (toString i) false
       else []) ++
      extractElems schemaName vs path (i + 1)
end

/-- `extractSchemaReferences(schema, schemaName)` from
`schemaRelationships.ts`. -/
def extractSchemaReferences (schema : Json) (schemaName : String) :
    List SchemaRelationship :=
  extractTraverse schemaName schema "" "" false

mutual
/-- JS `Array.prototype.toString`: elements joined by `,`, `null` printing
as the empty string. -/
def jsArrToString : List Json → String
  | [] => ""
  | [e] => jsElemToString e
  | e :: es => jsElemToString e ++ "," ++ jsArrToString es

/-- One array element under `Array.prototype.toString`. -/
def jsElemToString : Json → String
  | .null => ""
  | .bool b => cond b "true" "false"
  | .num n => toString n
  | .str s => s
  | .arr es => jsArrToString es
  | .obj _ => "[object Object]"
end

/-- JS template-literal stringification of a JSON value, as used when a
property's declared `type` is interpolated into `"key: type"`. -/
def jsToString : Json → String
  | .null => "null"
  | .bool b => cond b "true" "false"
  | .num n => toString n
  | .str s => s
  | .arr es => jsArrToString es
  | .obj _ => "[object Object]"

/-- `prop.type || 'any'` rendered into the `"key: type"` string. -/
def propTypeStr (p : Json) : String :=
  match jsField p "type" with
  | some t => if jsTruthy t then jsToString t else "any"
  | none => "any"

/-- The `properties` listing of `createSchemaGraph`: one `"key: type"` string
per key of the document's truthy `properties` value (`Object.keys` of a
string enumerates its character indices, of an array its element indices,
of other primitives nothing). -/
def extractProperties (schema : Json) : List String :=
  match jsField schema "properties" with
  | some (.obj kvs) =>
      kvs.map (fun kv => kv.1 ++ ": " ++ propTypeStr kv.2)
  | some (.arr es) =>
      es.enum.map (fun iv => toString iv.1 ++ ": " ++ propTypeStr iv.2)
  | some (.str s) =>
      (List.range s.length).map (fun i => toString i ++ ": any")
  | _ => []

/-- `schema.title || schema.$id || name`, kept as a JSON value because the
`title`/`$id` fields need not be strings. -/
def nodeLabel (schema : Json) (name : String) : Json :=
  match jsField schema "title" with
  | some t =>
    if jsTruthy t then t
    else
      match jsField schema "$id" with
      | some i => if jsTruthy i then i else .str name
      | none => .str name
  | none =>
      match jsField schema "$id" with
      | some i => if jsTruthy i then i else .str name
      | none => .str name

/-- `extractEntityType` (fallback half): `pathParts[pathParts.length-1] || 'unknown'`. -/
def entityFallback (parts : List String) : String :=
  let filename := parts.getLastD ""
  if filename = "" then "unknown" else filename

/-- `extractEntityType` from `schemaRelationships.ts`: strip a trailing
`.schema.json`, split on `/`; a leading `v1` segment followed by a non-empty
segment names the entity, else the final segment (or `"unknown"`). -/
def extractEntityType (schemaPath : String) : String :=
  let withoutExtension :=
    if jsEndsWith schemaPath ".schema.json" then
      String.mk (schemaPath.data.take (schemaPath.data.length - 12))
    else schemaPath
  let pathParts := jsSplit withoutExtension '/'
  match pathParts with
  | p0 :: p1 :: _ =>
    if p0 = "v1" ∧ p1 ≠ "" then p1 else entityFallback pathParts
  | _ => entityFallback pathParts

/-- A 2-D node position. -/
structure Position where
  x : Int
  y : Int
deriving DecidableEq, Repr

/-- The `data` payload `createSchemaGraph` attaches to a node. -/
structure NodeData where
  label : Json
  schemaName : String
  isRoot : Bool
  isExpanded : Bool
  properties : List String
  schemaData : Json
  entityType : String

/-- A React-Flow node as produced by `createSchemaGraph` (`type` is always
`"schemaNode"`; the visual style lives in the rendering layer). -/
structure Node where
  id : String
  type : String
  data : NodeData
  position : Position

/-- The `data` payload `createSchemaGraph` attaches to an edge; the stroke
color and width are a fixed function of `type` and are omitted. -/
structure EdgeData where
  type : RelType
  propertyNames : List String
  count : Nat
deriving DecidableEq, Repr

/-- A React-Flow edge as produced by `createSchemaGraph`. -/
structure Edge where
  id : String
  source : String
  target : String
  animated : Bool
  data : EdgeData
deriving DecidableEq, Repr

/-- The node built per document in `createSchemaGraph`. -/
def mkNode (relationships : List SchemaRelationship)
    (expandedNodes : List String) (name : String) (schema : Json) : Node :=
  { id := name
    type := "schemaNode"
    data :=
      { label := nodeLabel schema name
        schemaName := name
        isRoot := !(relationships.any (fun r => r.to_ == name))
        isExpanded := expandedNodes.contains name
        properties := extractProperties schema
        schemaData := schema
        entityType := extractEntityType name }
    position := ⟨0, 0⟩ }

/-- The grouping key `rel.from + "-" + rel.to` of `createSchemaGraph`. -/
def relKey (r : SchemaRelationship) : String :=
  r.from_ ++ "-" ++ r.to_

/-- The keys of the `relationshipGroups` map, in insertion order (JS `Map`
iteration order is first-insertion order). -/
def collectKeys (rels : List SchemaRelationship) : List String :=
  rels.foldl (fun acc r => if acc.contains (relKey r) then acc else acc ++ [relKey r]) []

/-- Resolution of a relationship endpoint to a node id: exact match, else the
first node id with the endpoint as suffix, else the raw endpoint (JS `||`
also rejects an empty-string match). -/
def resolveNode (nodeIds : List String) (p : String) : String :=
  if nodeIds.contains p then p
  else
    match nodeIds.find? (fun id => jsEndsWith id p) with
    | some s => if s = "" then p else s
    | none => p

/-- Edge classification: a group of size `> 1` is `multiple`, else the single
relationship's own cardinality decides. -/
def classifyEdge (group : List SchemaRelationship) (rel : SchemaRelationship) : RelType :=
  if group.length > 1 then .multiple
  else if rel.type = .one_to_many then .one_to_many
  else .one_to_one

/-- Processing of one relationship group inside `createSchemaGraph`: state is
the emitted edges together with the `edgeIds` set. -/
def edgeStep (nodeIds : List String) (rels : List SchemaRelationship)
    (st : List Edge × List String) (k : String) : List Edge × List String :=
  match rels.filter (fun r => relKey r == k) with
  | [] => st
  | rel :: rest =>
    let group := rel :: rest
    let fromNode := resolveNode nodeIds rel.from_
    let toNode := resolveNode nodeIds rel.to_
    if nodeIds.contains fromNode && nodeIds.contains toNode then
      let edgeId := fromNode ++ "-" ++ toNode
      if st.2.contains edgeId then st
      else
        (st.1 ++ [{ id := edgeId
                    source := fromNode
                    target := toNode
                    animated := true
                    data :=
                      { type := classifyEdge group rel
                        propertyNames := (group.map (fun r => r.propertyName)).filter (fun s => s ≠ "")
                        count := group.length } }],
         st.2 ++ [edgeId])
    else st

/-- `createSchemaGraph(schemas, relationships, expandedNodes)` from
`schemaRelationships.ts`: one node per document, then one edge per
relationship group that resolves to existing nodes. -/
def createSchemaGraph (schemas : List (String × Json))
    (relationships : List SchemaRelationship)
    (expandedNodes : List String) : List Node × List Edge :=
  let nodes := schemas.map (fun kv => mkNode relationships expandedNodes kv.1 kv.2)
  let nodeIds := schemas.map (fun kv => kv.1)
  let edges := ((collectKeys relationships).foldl (edgeStep nodeIds relationships) ([], [])).1
  (nodes, edges)

/-- One node placement as returned by the external layout computation. -/
structure ElkPoint where
  id : String
  x : Int
  y : Int

/-- `layoutGraph` from `graphUtils.ts`, with the external ELK call abstracted
as an `Except` argument: the `try` branch reconciles the returned positions
onto the input nodes (`layoutNode?.x || 0`), the `catch` branch returns the
inputs untouched. -/
def layoutGraph (nodes : List Node) (edges : List Edge)
    (elkResult : Except String (List ElkPoint)) : List Node × List Edge :=
  match elkResult with
  | .ok layout =>
      (nodes.map (fun node =>
        match layout.find? (fun n => n.id == node.id) with
        | some p => { node with position := ⟨p.x, p.y⟩ }
        | none => { node with position := ⟨0, 0⟩ }),
       edges)
  | .error _ => (nodes, edges)

/-- The well-formedness facts claim C5 asserts of every extracted
relationship: the resolved target keeps its `.json` suffix and the raw ref
was not fragment-only. -/
def RelOk (r : SchemaRelationship) : Prop :=
  jsEndsWith r.to_ ".json" = true ∧ jsStartsWith r.refPath "#" = false

/-- The empty document `a.json` of the end-to-end scenario. -/
def c1DocA : Json := .obj []

/-- The document `b.json` of the end-to-end scenario: one plain `$ref` to `a.json`. -/
def c1DocB : Json := .obj [("$ref", .str "a.json")]

/-- The document `c.json` of the end-to-end scenario: `a.json` as the direct
`items` schema of a `type: "array"` node. -/
def c1DocC : Json :=
  .obj [("type", .str "array"), ("items", .obj [("$ref", .str "a.json")])]

/-- The three-document collection of the end-to-end scenario. -/
def c1Docs : List (String × Json) :=
  [("a.json", c1DocA), ("b.json", c1DocB), ("c.json", c1DocC)]

/-- The relationships obtained by running the extractor over all three
documents of the end-to-end scenario. -/
def c1Rels : List SchemaRelationship :=
  extractSchemaReferences c1DocA "a.json" ++
    extractSchemaReferences c1DocB "b.json" ++
    extractSchemaReferences c1DocC "c.json"

/-- A document whose root is a JSON array wrapping an object with a
cross-file `$ref`: the traversal descends into it. -/
def arrayRootDoc : Json := .arr [.obj [("$ref", .str "a.json")]]

/-- A document holding one bare-name `$ref`, used against the path
`v1/user/user.schema.json`. -/
def bareRefDoc : Json := .obj [("$ref", .str "role.schema.json")]


/-- Documents of the C4 counterexample: the ids are chosen so that the
grouping key of the pair ("a", "b-c") collides with the key of the pair
("a-b", "c"). -/
def c4DocA : Json := .obj []
def c4Docs : List (String × Json) := [("a", c4DocA), ("b-c", c4DocA)]
def c4RelMain : SchemaRelationship := ⟨"a", "b-c", "x.json", .one_to_one, ""⟩
def c4RelCollide : SchemaRelationship := ⟨"a-b", "c", "y.json", .one_to_one, ""⟩
def c4Rels : List SchemaRelationship := [c4RelMain, c4RelMain, c4RelCollide]

/-- The invariant maintained over the relationship-group fold of
`createSchemaGraph`, relative to a distinguished resolved pair `(f, t)`:
`edgeIds` mirrors the emitted edge ids, every edge id is its
source-dash-target with both endpoints real nodes, any `(f, t)` edge carries
the expected count and class, and the number of `(f, t)` edges tracks
whether the pair's group has been processed. -/
def EdgeInv (nodeIds : List String) (f t : String) (N : Nat)
    (st : List Edge × List String) (kDone : Bool) : Prop :=
  st.2 = st.1.map Edge.id ∧
  (∀ e ∈ st.1, e.id = e.source ++ "-" ++ e.target ∧
    e.source ∈ nodeIds ∧ e.target ∈ nodeIds) ∧
  (∀ e ∈ st.1, e.source = f → e.target = t →
    e.data.count = N ∧ e.data.type = RelType.multiple) ∧
  (st.1.filter (fun e => e.source == f && e.target == t)).length =
    (if kDone then 1 else 0)


/-- Inputs of the C4 witness: two identical relationships b.json -> a.json. -/
def c4wRel : SchemaRelationship := ⟨"b.json", "a.json", "a.json", .one_to_one, "x"⟩
def c4wDocs : List (String × Json) := [("a.json", .obj []), ("b.json", .obj [])]
def c4wRels : List SchemaRelationship := [c4wRel, c4wRel]

/-- Claim C7: when the external layout computation fails, `layoutGraph`
swallows the failure and returns the input nodes (positions untouched) and
the unmodified input edges. -/
theorem layoutGraph_failure_returns_inputs (nodes : List Node) (edges : List Edge)
    (err : String) :
    layoutGraph nodes edges (.error err) = (nodes, edges) := rfl

/-- Claim C9: `createSchemaGraph` is deterministic: two calls on identical
inputs agree on every node id and derived node datum and on every edge id,
classification, property-name list and count (position is excluded by
projecting it away). -/
theorem createSchemaGraph_deterministic (schemas : List (String × Json))
    (relationships : List SchemaRelationship) (expandedNodes : List String) :
    ((createSchemaGraph schemas relationships expandedNodes).1.map
        (fun n => (n.id, n.data.label, n.data.isRoot, n.data.isExpanded,
          n.data.entityType, n.data.properties)) =
      (createSchemaGraph schemas relationships expandedNodes).1.map
        (fun n => (n.id, n.data.label, n.data.isRoot, n.data.isExpanded,
          n.data.entityType, n.data.properties))) ∧
    ((createSchemaGraph schemas relationships expandedNodes).2.map
        (fun e => (e.id, e.data.type, e.data.propertyNames, e.data.count)) =
      (createSchemaGraph schemas relationships expandedNodes).2.map
        (fun e => (e.id, e.data.type, e.data.propertyNames, e.data.count))) :=
  ⟨rfl, rfl⟩

/-- Claim C8 as stated is false: a JSON array at the traversal root is not an
object, yet the extractor walks it and returns a relationship. -/
theorem extract_array_root_not_empty :
    extractSchemaReferences arrayRootDoc "doc.json" ≠ [] := by decide

/-- Claim C8, amended: a root that is neither an object nor an array (null,
boolean, number or string) yields an empty relationship sequence; the
extractor is a total function, so no exception can escape. -/
theorem extract_primitive_root_empty (P : String) (b : Bool) (n : Int) (s : String) :
    extractSchemaReferences .null P = [] ∧
    extractSchemaReferences (.bool b) P = [] ∧
    extractSchemaReferences (.num n) P = [] ∧
    extractSchemaReferences (.str s) P = [] :=
  ⟨rfl, rfl, rfl, rfl⟩

/-- Claim C1 as stated is false: in the end-to-end scenario the code marks
`a.json` (the referenced document) with `isRoot = false`, not `true`. -/
theorem c1_isRoot_assignment_refuted :
    ¬ ((createSchemaGraph c1Docs c1Rels []).1.map (fun n => (n.id, n.data.isRoot)) =
        [("a.json", true), ("b.json", false), ("c.json", false)]) := by decide

/-- Claim C1, amended: the scenario yields exactly 3 nodes with
`a.json.isRoot = false` and `b.json`, `c.json` root, and exactly 2 edges,
`b→a` one-to-one and `c→a` one-to-many, each backed by a single relationship. -/
theorem c1_end_to_end :
    (createSchemaGraph c1Docs c1Rels []).1.map (fun n => (n.id, n.data.isRoot)) =
      [("a.json", false), ("b.json", true), ("c.json", true)] ∧
    (createSchemaGraph c1Docs c1Rels []).2.map
        (fun e => (e.source, e.target, e.data.type, e.data.count)) =
      [("b.json", "a.json", RelType.one_to_one, 1),
       ("c.json", "a.json", RelType.one_to_many, 1)] := by
  constructor <;> decide

/-- Claim C3 as stated is false: the bare name `role.schema.json` inside
`v1/user/user.schema.json` does not resolve to `v1/role.schema.json`. -/
theorem bare_name_resolution_refuted :
    ((extractSchemaReferences bareRefDoc "v1/user/user.schema.json").map
        (fun r => r.to_)).contains "v1/role.schema.json" = false := by decide

/-- Claim C3, amended: the bare name resolves into the referencing document's
own directory, `v1/user/role.schema.json`. -/
theorem bare_name_resolution :
    (extractSchemaReferences bareRefDoc "v1/user/user.schema.json").map (fun r => r.to_) =
      ["v1/user/role.schema.json"] := by decide

/-- Claim C2: a node produced by `createSchemaGraph` has `isRoot = true` iff
no relationship in the full list targets its path as `to`, independently of
the expanded set and of edge matching. -/
theorem isRoot_iff_untargeted (schemas : List (String × Json))
    (relationships : List SchemaRelationship) (expandedNodes : List String)
    (n : Node) (hn : n ∈ (createSchemaGraph schemas relationships expandedNodes).1) :
    n.data.isRoot = true ↔ ∀ r ∈ relationships, r.to_ ≠ n.id := by
  simp only [createSchemaGraph, List.mem_map] at hn
  obtain ⟨kv, hkv, rfl⟩ := hn
  simp [mkNode, List.any_eq_true]

theorem isRoot_iff_untargeted_witness :
    ((mkNode [] [] "a.json" (Json.obj [])) ∈
        (createSchemaGraph [("a.json", Json.obj [])] [] []).1) ∧
    ((mkNode [] [] "a.json" (Json.obj [])).data.isRoot = true ↔
      ∀ r ∈ ([] : List SchemaRelationship), r.to_ ≠ (mkNode [] [] "a.json" (Json.obj [])).id) := by
  have h : (mkNode [] [] "a.json" (Json.obj [])) ∈
      (createSchemaGraph [("a.json", Json.obj [])] [] []).1 := by
    simp [createSchemaGraph]
  exact ⟨h, isRoot_iff_untargeted _ _ _ _ h⟩

theorem lookupField_cons (k' : String) (v : Json) (fs : List (String × Json)) (k : String) :
    lookupField ((k', v) :: fs) k = if k' = k then some v else lookupField fs k := by
  by_cases h : k' = k
  · simp only [lookupField, List.find?, if_pos h, show (k' == k) = true by simp [h]]
  · simp only [lookupField, List.find?, if_neg h, show (k' == k) = false by simp [h]]

theorem lookupField_nil (k : String) : lookupField [] k = none := rfl

/-- Claim C6: a `$ref` that is the direct `items` schema of a `type:"array"`
property is collected as one-to-many; the same `$ref` as a plain non-items
property value is collected as one-to-one. -/
theorem array_items_cardinality (P p r : String)
    (hp : p ≠ "items")
    (hm : refFilePart r ≠ "")
    (hj : jsEndsWith (refFilePart r) ".json" = true) :
    extractSchemaReferences
        (.obj [(p, .obj [("type", .str "array"),
                         ("items", .obj [("$ref", .str r)])])]) P =
      [⟨P, resolveRef P (refFilePart r), r, .one_to_many, p⟩] ∧
    extractSchemaReferences (.obj [(p, .obj [("$ref", .str r)])]) P =
      [⟨P, resolveRef P (refFilePart r), r, .one_to_one, p⟩] := by
  have hr : r ≠ "" := by
    intro h
    apply hm
    rw [h]
    rfl
  constructor
  · simp [extractSchemaReferences, extractTraverse, refPart, extractItems,
          extractFields, lookupField_cons, lookupField_nil, typeIsArray,
          hp, hm, hj, hr, jsTruthy, isObjLike]
  · simp [extractSchemaReferences, extractTraverse, refPart, extractItems,
          extractFields, lookupField_cons, lookupField_nil, typeIsArray,
          hp, hm, hj, hr, jsTruthy, isObjLike]

theorem array_items_cardinality_witness :
    ("prop" ≠ "items" ∧ refFilePart "x.json" ≠ "" ∧
      jsEndsWith (refFilePart "x.json") ".json" = true) ∧
    (extractSchemaReferences
        (.obj [("prop", .obj [("type", .str "array"),
                              ("items", .obj [("$ref", .str "x.json")])])]) "doc.json" =
      [⟨"doc.json", resolveRef "doc.json" (refFilePart "x.json"), "x.json",
        .one_to_many, "prop"⟩] ∧
     extractSchemaReferences (.obj [("prop", .obj [("$ref", .str "x.json")])]) "doc.json" =
      [⟨"doc.json", resolveRef "doc.json" (refFilePart "x.json"), "x.json",
        .one_to_one, "prop"⟩]) :=
  ⟨⟨by decide, by decide, by decide⟩,
   array_items_cardinality "doc.json" "prop" "x.json" (by decide) (by decide) (by decide)⟩

theorem extractItems_false (P : String) (l : List (String × Json)) (path pn : String) :
    extractItems P false l path pn = [] := by
  induction l with
  | nil => rfl
  | cons kv fs ih =>
    obtain ⟨k, v⟩ := kv
    by_cases h : k = "items"
    · simp [extractItems, h]
    · simp [extractItems, h, ih]

theorem extractFields_append (P : String) (l₁ l₂ : List (String × Json)) (path : String) :
    extractFields P (l₁ ++ l₂) path = extractFields P l₁ path ++ extractFields P l₂ path := by
  induction l₁ with
  | nil => rfl
  | cons kv fs ih =>
    obtain ⟨k, v⟩ := kv
    simp [extractFields, ih]

theorem lookupField_append_single (fs : List (String × Json)) (k k2 : String) (v : Json)
    (h : k2 ≠ k) :
    lookupField (fs ++ [(k2, v)]) k = lookupField fs k := by
  simp only [lookupField, List.find?_append]
  have : List.find? (fun kv => kv.1 == k) [(k2, v)] = none := by
    simp only [List.find?]
    rw [show (k2 == k) = false by simp [h]]
  rw [this]
  cases List.find? (fun kv => kv.1 == k) fs <;> rfl

theorem typeIsArray_eq_false (fs : List (String × Json))
    (ht : lookupField fs "type" ≠ some (.str "array")) : typeIsArray fs = false := by
  unfold typeIsArray
  cases h : lookupField fs "type" with
  | none => rfl
  | some v =>
    cases v with
    | str s =>
      rw [h] at ht
      simp only [ne_eq, Option.some.injEq, Json.str.injEq] at ht
      simp [ht]
    | null => rfl
    | bool b => rfl
    | num n => rfl
    | arr es => rfl
    | obj fs2 => rfl

/-- Claim C10: a `$ref` anywhere inside the `items` value of a node whose
`type` is absent or not `"array"` is never collected: under that condition
the extraction result does not depend on the `items` value at all, in any
traversal context. -/
theorem items_ignored_without_array_type (P path pn : String) (pia : Bool)
    (fs : List (String × Json)) (X : Json)
    (ht : lookupField fs "type" ≠ some (.str "array")) :
    extractTraverse P (.obj (fs ++ [("items", X)])) path pn pia =
      extractTraverse P (.obj fs) path pn pia := by
  have h1 : typeIsArray fs = false := typeIsArray_eq_false fs ht
  have h2 : typeIsArray (fs ++ [("items", X)]) = false := by
    apply typeIsArray_eq_false
    rw [lookupField_append_single fs "type" "items" X (by decide)]
    exact ht
  simp only [extractTraverse, h1, h2, extractItems_false,
    lookupField_append_single fs "$ref" "items" X (by decide),
    extractFields_append, refPart]
  simp [extractFields]

theorem items_ignored_without_array_type_witness :
    (lookupField [("a", Json.obj [("$ref", Json.str "x.json")])] "type" ≠
      some (.str "array")) ∧
    extractTraverse "doc.json"
        (.obj ([("a", Json.obj [("$ref", Json.str "x.json")])] ++
          [("items", Json.obj [("$ref", Json.str "y.json")])])) "" "" false =
      extractTraverse "doc.json"
        (.obj [("a", Json.obj [("$ref", Json.str "x.json")])]) "" "" false :=
  ⟨fun h => Option.noConfusion h,
   items_ignored_without_array_type "doc.json" "" "" false _ _
     (fun h => Option.noConfusion h)⟩

theorem splitChars_ne_nil (c : Char) (l : List Char) : splitChars c l ≠ [] := by
  cases l with
  | nil => simp [splitChars]
  | cons x xs =>
    simp only [splitChars]
    by_cases h : x = c
    · simp [h]
    · simp only [if_neg h]
      cases splitChars c xs <;> simp

theorem splitChars_eq_singleton (c : Char) (xs hd : List Char)
    (h : splitChars c xs = [hd]) : hd = xs := by
  induction xs generalizing hd with
  | nil =>
    simp only [splitChars, List.cons.injEq] at h
    exact h.1.symm
  | cons y ys ih =>
    by_cases hyc : y = c
    · simp only [splitChars, if_pos hyc] at h
      injection h with h1 h2
      exact absurd h2 (splitChars_ne_nil c ys)
    · simp only [splitChars, if_neg hyc] at h
      rcases hr : splitChars c ys with _ | ⟨h1, t⟩
      · exact absurd hr (splitChars_ne_nil c ys)
      · rw [hr] at h
        simp only [List.cons.injEq] at h
        obtain ⟨rfl, ht⟩ := h
        cases t with
        | nil =>
          have : h1 = ys := ih h1 hr
          rw [this]
        | cons t0 t' => simp at ht

theorem mem_of_splitChars_length (c : Char) (xs : List Char)
    (h : 2 ≤ (splitChars c xs).length) : c ∈ xs := by
  induction xs with
  | nil => simp [splitChars] at h
  | cons y ys ih =>
    by_cases hyc : y = c
    · rw [hyc]; exact List.mem_cons_self c ys
    · simp only [splitChars, if_neg hyc] at h
      rcases hr : splitChars c ys with _ | ⟨h1, t⟩
      · exact absurd hr (splitChars_ne_nil c ys)
      · rw [hr] at h
        cases t with
        | nil => simp at h
        | cons t0 t' =>
          have : 2 ≤ (splitChars c ys).length := by rw [hr]; simp
          exact List.mem_cons_of_mem y (ih this)

theorem getLastD_default_irrel (a : α) (l : List α) (d1 d2 : α) :
    (a :: l).getLastD d1 = (a :: l).getLastD d2 := by
  rw [List.getLastD_cons, List.getLastD_cons]

theorem suffix_getLastD_splitChars (c : Char) (s l : List Char)
    (hs : s <:+ l) (hc : c ∉ s) : s <:+ (splitChars c l).getLastD [] := by
  induction l with
  | nil =>
    rw [List.suffix_nil.mp hs]
    exact List.nil_suffix
  | cons x xs ih =>
    by_cases hxc : x = c
    · have hsx : s <:+ xs := by
        rcases List.suffix_cons_iff.mp hs with heq | h'
        · exact absurd (by rw [heq, hxc]; exact List.mem_cons_self c xs) hc
        · exact h'
      simp only [splitChars, if_pos hxc, List.getLastD_cons]
      exact ih hsx
    · simp only [splitChars, if_neg hxc]
      rcases hr : splitChars c xs with _ | ⟨h1, t⟩
      · exact absurd hr (splitChars_ne_nil c xs)
      · cases t with
        | nil =>
          have hxs : h1 = xs := splitChars_eq_singleton c xs h1 hr
          subst hxs
          simpa using hs
        | cons t0 t' =>
          have hlen : 2 ≤ (splitChars c xs).length := by rw [hr]; simp
          have hcxs : c ∈ xs := mem_of_splitChars_length c xs hlen
          have hsx : s <:+ xs := by
            rcases List.suffix_cons_iff.mp hs with heq | h'
            · exact absurd (by rw [heq]; exact List.mem_cons_of_mem x hcxs) hc
            · exact h'
          have hih := ih hsx
          rw [hr, List.getLastD_cons] at hih
          rw [List.getLastD_cons]
          rwa [getLastD_default_irrel t0 t' (x :: h1) h1]

theorem map_getLastD_matching (f : α → β) (l : List α) (d : α) :
    (l.map f).getLastD (f d) = f (l.getLastD d) := by
  induction l generalizing d with
  | nil => rfl
  | cons a l' ih =>
    rw [List.map_cons, List.getLastD_cons, List.getLastD_cons]
    exact ih a

theorem map_getLastD (f : α → β) (l : List α) (hne : l ≠ []) (d : β) (d' : α) :
    (l.map f).getLastD d = f (l.getLastD d') := by
  cases l with
  | nil => exact absurd rfl hne
  | cons a l' =>
    rw [List.map_cons, getLastD_default_irrel (f a) (l'.map f) d (f d'),
      ← List.map_cons f a l']
    exact map_getLastD_matching f (a :: l') d' 

theorem getLastD_append_singleton (l : List α) (a : α) (d : α) :
    (l ++ [a]).getLastD d = a := by
  induction l generalizing d with
  | nil => rfl
  | cons x l' ih =>
    rw [List.cons_append, List.getLastD_cons]
    exact ih x

theorem concat_getLastD (l : List α) (hne : l ≠ []) (d : α) :
    l.dropLast ++ [l.getLastD d] = l := by
  induction l generalizing d with
  | nil => exact absurd rfl hne
  | cons a l' ih =>
    cases l' with
    | nil => rfl
    | cons b l'' =>
      rw [List.getLastD_cons]
      have : (a :: b :: l'').dropLast = a :: (b :: l'').dropLast := rfl
      rw [this, List.cons_append, ih (by simp) a]

theorem joinSlash_data_suffix (acc : List String) (a : String) :
    a.data <:+ (joinSlash (acc ++ [a])).data := by
  induction acc with
  | nil => exact List.suffix_refl _
  | cons x acc' ih =>
    rcases hq : acc' ++ [a] with _ | ⟨q, rest⟩
    · exact absurd hq (by simp)
    · have hj : joinSlash ((x :: acc') ++ [a]) = x ++ "/" ++ joinSlash (acc' ++ [a]) := by
        rw [List.cons_append, hq]
        rfl
      rw [hj, String.data_append]
      exact (ih.trans (List.suffix_append _ _))

theorem json_suffix_resolveRelativePath (P m : String)
    (hm : jsEndsWith m ".json" = true) :
    jsEndsWith (resolveRelativePath P m) ".json" = true := by
  rw [jsEndsWith, List.isSuffixOf_iff_suffix] at hm ⊢
  set L := splitChars '/' m.data with hLdef
  have hLne : L ≠ [] := splitChars_ne_nil _ _
  have h1 : ".json".data <:+ L.getLastD [] :=
    suffix_getLastD_splitChars '/' _ _ hm (by decide)
  set lastS : String := String.mk (L.getLastD []) with hlastdef
  have hlastdata : lastS.data = L.getLastD [] := rfl
  have h5 : 5 ≤ lastS.data.length := by
    have hle := h1.length_le
    have h5' : (".json".data).length = 5 := rfl
    rw [h5'] at hle
    rw [hlastdata]
    exact hle
  have hlastne : lastS ≠ "" := by
    intro h
    have hd : lastS.data = [] := by rw [h]
    rw [hd] at h5
    exact absurd h5 (by decide)
  have hsplit : jsSplit m '/' = L.map String.mk := rfl
  have hmapne : L.map String.mk ≠ [] := by simpa using hLne
  have hlastmap : (L.map String.mk).getLastD "" = lastS :=
    map_getLastD String.mk L hLne "" []
  have hdec : (L.map String.mk).dropLast ++ [lastS] = L.map String.mk := by
    rw [← hlastmap]
    exact concat_getLastD _ hmapne ""
  have hfilter : (L.map String.mk).filter (fun p => p ≠ "") =
      ((L.map String.mk).dropLast.filter (fun p => p ≠ "")) ++ [lastS] := by
    conv_lhs => rw [← hdec]
    rw [List.filter_append]
    congr 1
    simp [hlastne]
  have hunfold : resolveRelativePath P m =
      joinSlash (resolveSegments
        ((jsSplit (baseDirOf P) '/').filter (fun p => p ≠ ""))
        ((jsSplit m '/').filter (fun p => p ≠ ""))) := rfl
  rw [hunfold, hsplit, hfilter]
  have hne2 : lastS ≠ ".." := by
    intro h
    rw [h] at h5
    exact absurd h5 (by decide)
  have hne1 : lastS ≠ "." := by
    intro h
    rw [h] at h5
    exact absurd h5 (by decide)
  unfold resolveSegments
  rw [List.foldl_append]
  simp only [List.foldl_cons, List.foldl_nil]
  rw [if_neg hne2, if_neg hne1]
  exact h1.trans (joinSlash_data_suffix _ lastS)

theorem json_suffix_resolveRef (P m : String) (hm : jsEndsWith m ".json" = true) :
    jsEndsWith (resolveRef P m) ".json" = true := by
  unfold resolveRef
  split
  · exact json_suffix_resolveRelativePath P m hm
  · split
    · show jsEndsWith (if baseDirOf P ≠ "" then baseDirOf P ++ "/" ++ m else m) ".json" = true
      split
      · rw [jsEndsWith, List.isSuffixOf_iff_suffix] at hm ⊢
        rw [String.data_append]
        exact hm.trans (List.suffix_append _ _)
      · exact hm
    · exact hm

theorem not_fragment_of_refFilePart_ne (s : String) (hm : refFilePart s ≠ "") :
    jsStartsWith s "#" = false := by
  have hfp : refFilePart s = String.mk ((s.data).takeWhile (fun c => c ≠ '#')) := rfl
  rw [jsStartsWith]
  have hsharp : "#".data = ['#'] := rfl
  rw [hsharp]
  cases hd : s.data with
  | nil =>
    exfalso
    apply hm
    rw [hfp, hd]
    rfl
  | cons a l =>
    by_cases ha : a = '#'
    · exfalso
      apply hm
      rw [hfp, hd, ha]
      simp [List.takeWhile]
    · simp [List.isPrefixOf, Ne.symm ha]

theorem relOk_refPart (P : String) (fs : List (String × Json)) (pn : String)
    (pia : Bool) (r : SchemaRelationship) (h : r ∈ refPart P fs pn pia) : RelOk r := by
  unfold refPart at h
  split at h
  case h_1 x s heq =>
    split at h
    · by_cases hcond : refFilePart s ≠ "" ∧ jsEndsWith (refFilePart s) ".json" = true
      · rw [if_pos hcond] at h
        simp only [List.mem_singleton] at h
        subst h
        exact ⟨json_suffix_resolveRef P _ hcond.2, not_fragment_of_refFilePart_ne _ hcond.1⟩
      · rw [if_neg hcond] at h
        simp at h
    · simp at h
  case h_2 => simp at h

mutual
theorem relOk_traverse (P : String) : ∀ (j : Json) (path pn : String) (pia : Bool)
    (r : SchemaRelationship), r ∈ extractTraverse P j path pn pia → RelOk r
  | .null, path, pn, pia, r, h => by simp [extractTraverse] at h
  | .bool _, path, pn, pia, r, h => by simp [extractTraverse] at h
  | .num _, path, pn, pia, r, h => by simp [extractTraverse] at h
  | .str _, path, pn, pia, r, h => by simp [extractTraverse] at h
  | .arr es, path, pn, pia, r, h => relOk_elems P es path 0 r h
  | .obj fs, path, pn, pia, r, h => by
      simp only [extractTraverse, List.mem_append] at h
      rcases h with (h | h) | h
      · exact relOk_refPart P fs pn pia r h
      · exact relOk_items P (typeIsArray fs) fs path pn r h
      · exact relOk_fields P fs path r h

theorem relOk_items (P : String) (isArr : Bool) : ∀ (l : List (String × Json))
    (path pn : String) (r : SchemaRelationship),
    r ∈ extractItems P isArr l path pn → RelOk r
  | [], path, pn, r, h => by simp [extractItems] at h
  | (k, v) :: fs, path, pn, r, h => by
      simp only [extractItems] at h
      split at h
      · split at h
        · exact relOk_traverse P v path pn true r h
        · simp at h
      · exact relOk_items P isArr fs path pn r h

theorem relOk_fields (P : String) : ∀ (l : List (String × Json)) (path : String)
    (r : SchemaRelationship), r ∈ extractFields P l path → RelOk r
  | [], path, r, h => by simp [extractFields] at h
  | (k, v) :: fs, path, r, h => by
      simp only [extractFields, List.mem_append] at h
      rcases h with h | h
      · split at h
        · exact relOk_traverse P v path k false r h
        · simp at h
      · exact relOk_fields P fs path r h

theorem relOk_elems (P : String) : ∀ (l : List Json) (path : String) (i : Nat)
    (r : SchemaRelationship), r ∈ extractElems P l path i → RelOk r
  | [], path, i, r, h => by simp [extractElems] at h
  | v :: vs, path, i, r, h => by
      simp only [extractElems, List.mem_append] at h
      rcases h with h | h
      · split at h
        · exact relOk_traverse P v path (toString i) false r h
        · simp at h
      · exact relOk_elems P vs path (i + 1) r h
end

/-- Claim C5: every relationship the extractor returns has a `to` ending in
`.json`, and none is derived from a fragment-only `$ref` (its recorded raw
ref never starts with `#`). -/
theorem extracted_refs_wellformed (D : Json) (P : String) :
    ∀ r ∈ extractSchemaReferences D P,
      jsEndsWith r.to_ ".json" = true ∧ jsStartsWith r.refPath "#" = false :=
  fun r h => relOk_traverse P D "" "" false r h

theorem extracted_refs_wellformed_witness :
    ((⟨"a.json", "b.json", "b.json", RelType.one_to_one, ""⟩ : SchemaRelationship) ∈
      extractSchemaReferences (Json.obj [("$ref", Json.str "b.json")]) "a.json") ∧
    (jsEndsWith "b.json" ".json" = true ∧ jsStartsWith "b.json" "#" = false) :=
  ⟨by decide,
   extracted_refs_wellformed (Json.obj [("$ref", Json.str "b.json")]) "a.json"
     ⟨"a.json", "b.json", "b.json", RelType.one_to_one, ""⟩ (by decide)⟩


theorem c4_dedup_refuted :
    ((c4Rels.filter (fun r => r.from_ == "a" && r.to_ == "b-c")).length = 2) ∧
    ("a" ∈ c4Docs.map Prod.fst ∧ "b-c" ∈ c4Docs.map Prod.fst) ∧
    (∀ r ∈ c4Rels, ¬(r.from_ = "a" ∧ r.to_ = "b-c") →
        ¬(resolveNode (c4Docs.map Prod.fst) r.from_ = "a" ∧
          resolveNode (c4Docs.map Prod.fst) r.to_ = "b-c")) ∧
    ¬ (((createSchemaGraph c4Docs c4Rels []).2.filter
          (fun e => e.source == "a" && e.target == "b-c")).map
        (fun e => (e.data.count, e.data.type)) = [(2, RelType.multiple)]) := by
  refine ⟨by decide, ⟨by decide, by decide⟩, by decide, by decide⟩

theorem edgeStep_eq_nil (nodeIds : List String) (rels : List SchemaRelationship)
    (st : List Edge × List String) (k : String)
    (hg : rels.filter (fun r => relKey r == k) = []) :
    edgeStep nodeIds rels st k = st := by
  unfold edgeStep
  rw [hg]

theorem edgeStep_eq_cons (nodeIds : List String) (rels : List SchemaRelationship)
    (st : List Edge × List String) (k : String) (rel : SchemaRelationship)
    (rest : List SchemaRelationship)
    (hg : rels.filter (fun r => relKey r == k) = rel :: rest) :
    edgeStep nodeIds rels st k =
      (if nodeIds.contains (resolveNode nodeIds rel.from_) &&
          nodeIds.contains (resolveNode nodeIds rel.to_) then
        if st.2.contains
            (resolveNode nodeIds rel.from_ ++ "-" ++ resolveNode nodeIds rel.to_) then st
        else
          (st.1 ++
            [{ id := resolveNode nodeIds rel.from_ ++ "-" ++ resolveNode nodeIds rel.to_
               source := resolveNode nodeIds rel.from_
               target := resolveNode nodeIds rel.to_
               animated := true
               data :=
                 { type := classifyEdge (rel :: rest) rel
                   propertyNames :=
                     ((rel :: rest).map (fun r => r.propertyName)).filter (fun s => s ≠ "")
                   count := (rel :: rest).length } }],
           st.2 ++
            [resolveNode nodeIds rel.from_ ++ "-" ++ resolveNode nodeIds rel.to_])
      else st) := by
  unfold edgeStep
  rw [hg]

theorem resolveNode_of_mem (nodeIds : List String) (p : String) (h : p ∈ nodeIds) :
    resolveNode nodeIds p = p := by
  unfold resolveNode
  rw [if_pos (List.elem_iff.mpr h)]

theorem edgeStep_preserves_other (nodeIds : List String)
    (rels : List SchemaRelationship) (f t : String) (N : Nat)
    (st : List Edge × List String) (kDone : Bool) (k' : String)
    (hk' : k' ≠ f ++ "-" ++ t)
    (h4 : ∀ r ∈ rels, ¬(r.from_ = f ∧ r.to_ = t) →
      ¬(resolveNode nodeIds r.from_ = f ∧ resolveNode nodeIds r.to_ = t))
    (hinv : EdgeInv nodeIds f t N st kDone) :
    EdgeInv nodeIds f t N (edgeStep nodeIds rels st k') kDone := by
  rcases hg : rels.filter (fun r => relKey r == k') with _ | ⟨rel, rest⟩
  · rw [edgeStep_eq_nil _ _ _ _ hg]
    exact hinv
  · rw [edgeStep_eq_cons _ _ _ _ _ _ hg]
    split
    · rename_i hboth
      split
      · exact hinv
      · have hrelmem : rel ∈ rels ∧ (relKey rel == k') = true := by
          have hm : rel ∈ rels.filter (fun r => relKey r == k') := by
            rw [hg]
            exact List.mem_cons_self _ _
          exact List.mem_filter.mp hm
        have hrelk : relKey rel = k' := by simpa using hrelmem.2
        have hnotpair : ¬(resolveNode nodeIds rel.from_ = f ∧
            resolveNode nodeIds rel.to_ = t) := by
          intro hpair
          by_cases hp : rel.from_ = f ∧ rel.to_ = t
          · apply hk'
            rw [← hrelk, relKey, hp.1, hp.2]
          · exact h4 rel hrelmem.1 hp hpair
        rw [Bool.and_eq_true] at hboth
        have hfmem : resolveNode nodeIds rel.from_ ∈ nodeIds :=
          List.elem_iff.mp hboth.1
        have htmem : resolveNode nodeIds rel.to_ ∈ nodeIds :=
          List.elem_iff.mp hboth.2
        obtain ⟨hA, hB, hC, hD⟩ := hinv
        have hpredfalse : ((resolveNode nodeIds rel.from_ == f) &&
            (resolveNode nodeIds rel.to_ == t)) = false := by
          by_cases h1 : resolveNode nodeIds rel.from_ = f
          · by_cases h2 : resolveNode nodeIds rel.to_ = t
            · exact absurd ⟨h1, h2⟩ hnotpair
            · simp [h2]
          · simp [h1]
        refine ⟨?_, ?_, ?_, ?_⟩
        · simp only [List.map_append, List.map_cons, List.map_nil, hA]
        · intro e he
          rcases List.mem_append.mp he with he | he
          · exact hB e he
          · simp only [List.mem_singleton] at he
            subst he
            exact ⟨rfl, hfmem, htmem⟩
        · intro e he hf' ht'
          rcases List.mem_append.mp he with he | he
          · exact hC e he hf' ht'
          · simp only [List.mem_singleton] at he
            subst he
            exact absurd ⟨hf', ht'⟩ hnotpair
        · rw [List.filter_append]
          simp only [List.filter_cons, List.filter_nil]
          rw [hpredfalse]
          simpa using hD
    · exact hinv

theorem edgeStep_emits_pair (nodeIds : List String)
    (rels : List SchemaRelationship) (f t : String) (N : Nat)
    (st : List Edge × List String)
    (hN : 2 ≤ N)
    (hlen : (rels.filter (fun r => relKey r == f ++ "-" ++ t)).length = N)
    (h2 : ∀ r ∈ rels, relKey r = f ++ "-" ++ t → r.from_ = f ∧ r.to_ = t)
    (hf : f ∈ nodeIds) (ht : t ∈ nodeIds)
    (h5 : ∀ a ∈ nodeIds, ∀ b ∈ nodeIds, a ++ "-" ++ b = f ++ "-" ++ t → a = f ∧ b = t)
    (hinv : EdgeInv nodeIds f t N st false) :
    EdgeInv nodeIds f t N (edgeStep nodeIds rels st (f ++ "-" ++ t)) true := by
  obtain ⟨hA, hB, hC, hD⟩ := hinv
  rcases hg : rels.filter (fun r => relKey r == f ++ "-" ++ t) with _ | ⟨rel, rest⟩
  · rw [hg] at hlen
    simp at hlen
    omega
  · have hrelmem : rel ∈ rels ∧ (relKey rel == f ++ "-" ++ t) = true := by
      have hm : rel ∈ rels.filter (fun r => relKey r == f ++ "-" ++ t) := by
        rw [hg]
        exact List.mem_cons_self _ _
      exact List.mem_filter.mp hm
    have hrelk : relKey rel = f ++ "-" ++ t := by simpa using hrelmem.2
    obtain ⟨hrf, hrt⟩ := h2 rel hrelmem.1 hrelk
    rw [edgeStep_eq_cons _ _ _ _ _ _ hg]
    rw [hrf, hrt, resolveNode_of_mem _ _ hf, resolveNode_of_mem _ _ ht]
    rw [if_pos (by rw [Bool.and_eq_true]; exact ⟨List.elem_iff.mpr hf, List.elem_iff.mpr ht⟩)]
    have hnotcontains : st.2.contains (f ++ "-" ++ t) = false := by
      by_contra hcon
      have hcon' : st.2.contains (f ++ "-" ++ t) = true := by
        cases hcc : st.2.contains (f ++ "-" ++ t)
        · exact absurd hcc hcon
        · rfl
      have hmem : f ++ "-" ++ t ∈ st.1.map Edge.id := by
        rw [← hA]
        exact List.elem_iff.mp hcon'
      obtain ⟨e, he, heid⟩ := List.mem_map.mp hmem
      obtain ⟨hid, hsm, htm⟩ := hB e he
      rw [hid] at heid
      obtain ⟨hsf, htt⟩ := h5 e.source hsm e.target htm heid
      have : e ∈ st.1.filter (fun e => e.source == f && e.target == t) :=
        List.mem_filter.mpr ⟨he, by rw [hsf, htt]; simp⟩
      have hpos : 0 < (st.1.filter (fun e => e.source == f && e.target == t)).length :=
        List.length_pos.mpr (List.ne_nil_of_mem this)
      rw [hD] at hpos
      simp at hpos
    rw [if_neg (by rw [hnotcontains]; exact Bool.false_ne_true)]
    have hcount : (rel :: rest).length = N := by rw [← hg]; exact hlen
    have hclass : classifyEdge (rel :: rest) rel = RelType.multiple := by
      unfold classifyEdge
      rw [if_pos (by omega)]
    refine ⟨?_, ?_, ?_, ?_⟩
    · simp only [List.map_append, List.map_cons, List.map_nil, hA]
    · intro e he
      rcases List.mem_append.mp he with he | he
      · exact hB e he
      · simp only [List.mem_singleton] at he
        subst he
        exact ⟨rfl, hf, ht⟩
    · intro e he hf' ht'
      rcases List.mem_append.mp he with he | he
      · exact hC e he hf' ht'
      · simp only [List.mem_singleton] at he
        subst he
        exact ⟨hcount, hclass⟩
    · rw [List.filter_append]
      simp only [List.filter_cons, List.filter_nil]
      rw [show ((f == f) && (t == t)) = true by simp]
      rw [List.length_append, hD]
      simp

theorem mem_collectKeys_aux (k : String) (l : List SchemaRelationship) :
    ∀ acc : List String, (k ∈ acc ∨ ∃ r ∈ l, relKey r = k) →
      k ∈ l.foldl (fun acc r => if acc.contains (relKey r) then acc else acc ++ [relKey r]) acc := by
  induction l with
  | nil =>
    intro acc h
    rcases h with h | ⟨r, hr, _⟩
    · exact h
    · exact absurd hr (List.not_mem_nil r)
  | cons r0 l' ih =>
    intro acc h
    rw [List.foldl_cons]
    apply ih
    by_cases hc : acc.contains (relKey r0) = true
    · rw [if_pos hc]
      rcases h with h | ⟨r, hr, hk⟩
      · exact Or.inl h
      · rcases List.mem_cons.mp hr with rfl | hr'
        · exact Or.inl (by rw [← hk]; exact List.elem_iff.mp hc)
        · exact Or.inr ⟨r, hr', hk⟩
    · rw [if_neg hc]
      rcases h with h | ⟨r, hr, hk⟩
      · exact Or.inl (List.mem_append_left _ h)
      · rcases List.mem_cons.mp hr with rfl | hr'
        · exact Or.inl (List.mem_append_right _ (by rw [hk]; exact List.mem_singleton_self _))
        · exact Or.inr ⟨r, hr', hk⟩

theorem mem_collectKeys (k : String) (rels : List SchemaRelationship)
    (h : ∃ r ∈ rels, relKey r = k) : k ∈ collectKeys rels :=
  mem_collectKeys_aux k rels [] (Or.inr h)

theorem collectKeys_nodup_aux (l : List SchemaRelationship) :
    ∀ acc : List String, acc.Nodup →
      (l.foldl (fun acc r => if acc.contains (relKey r) then acc else acc ++ [relKey r]) acc).Nodup := by
  induction l with
  | nil => intro acc h; exact h
  | cons r0 l' ih =>
    intro acc h
    rw [List.foldl_cons]
    apply ih
    by_cases hc : acc.contains (relKey r0) = true
    · rw [if_pos hc]; exact h
    · rw [if_neg hc]
      have hnm : relKey r0 ∉ acc := by
        intro hm
        exact hc (List.elem_iff.mpr hm)
      simp [List.nodup_append, h, hnm]

theorem collectKeys_nodup (rels : List SchemaRelationship) : (collectKeys rels).Nodup :=
  collectKeys_nodup_aux rels [] List.nodup_nil

theorem foldl_edgeStep_no_k (nodeIds : List String)
    (rels : List SchemaRelationship) (f t : String) (N : Nat) (kDone : Bool)
    (h4 : ∀ r ∈ rels, ¬(r.from_ = f ∧ r.to_ = t) →
      ¬(resolveNode nodeIds r.from_ = f ∧ resolveNode nodeIds r.to_ = t)) :
    ∀ (ks : List String) (st : List Edge × List String),
      (f ++ "-" ++ t) ∉ ks → EdgeInv nodeIds f t N st kDone →
      EdgeInv nodeIds f t N (ks.foldl (edgeStep nodeIds rels) st) kDone := by
  intro ks
  induction ks with
  | nil => intro st _ h; exact h
  | cons k' ks' ih =>
    intro st hnk hinv
    rw [List.foldl_cons]
    apply ih _ (fun hm => hnk (List.mem_cons_of_mem _ hm))
    exact edgeStep_preserves_other nodeIds rels f t N st kDone k'
      (fun he => hnk (he ▸ List.mem_cons_self _ _)) h4 hinv

/-- Claim C4, amended: if exactly N ≥ 2 relationships carry the grouping key
`from + "-" + to` of a pair (f, t) (in particular the N sharing the pair and
no key-string collision), both f and t name existing documents, the key
string splits into two node ids only as (f, t), and no other relationship
resolves to the pair, then exactly one edge is emitted for (f, t), with
`count = N` and classification `multiple`. -/
theorem dedup_multiple_edge (docs : List (String × Json))
    (rels : List SchemaRelationship) (exp : List String)
    (f t : String) (N : Nat)
    (hN : 2 ≤ N)
    (h1 : (rels.filter (fun r => r.from_ == f && r.to_ == t)).length = N)
    (h2 : ∀ r ∈ rels, relKey r = f ++ "-" ++ t → r.from_ = f ∧ r.to_ = t)
    (hf : f ∈ docs.map Prod.fst) (ht : t ∈ docs.map Prod.fst)
    (h4 : ∀ r ∈ rels, ¬(r.from_ = f ∧ r.to_ = t) →
      ¬(resolveNode (docs.map Prod.fst) r.from_ = f ∧
        resolveNode (docs.map Prod.fst) r.to_ = t))
    (h5 : ∀ a ∈ docs.map Prod.fst, ∀ b ∈ docs.map Prod.fst,
      a ++ "-" ++ b = f ++ "-" ++ t → a = f ∧ b = t) :
    ((createSchemaGraph docs rels exp).2.filter
        (fun e => e.source == f && e.target == t)).length = 1 ∧
    ∀ e ∈ (createSchemaGraph docs rels exp).2, e.source = f → e.target = t →
      e.data.count = N ∧ e.data.type = RelType.multiple := by
  have hfilter_eq : rels.filter (fun r => relKey r == f ++ "-" ++ t) =
      rels.filter (fun r => r.from_ == f && r.to_ == t) := by
    apply List.filter_congr
    intro r hr
    by_cases hk : relKey r = f ++ "-" ++ t
    · obtain ⟨h2f, h2t⟩ := h2 r hr hk
      simp [hk, h2f, h2t]
    · have hrhs : ((r.from_ == f) && (r.to_ == t)) = false := by
        by_cases hp : r.from_ = f ∧ r.to_ = t
        · exact absurd (by rw [relKey, hp.1, hp.2]) hk
        · by_cases hp1 : r.from_ = f
          · have hp2 : ¬ r.to_ = t := fun h => hp ⟨hp1, h⟩
            simp [hp2]
          · simp [hp1]
      simp [hk, hrhs]
  have hlen : (rels.filter (fun r => relKey r == f ++ "-" ++ t)).length = N := by
    rw [hfilter_eq]
    exact h1
  have hkmem : (f ++ "-" ++ t) ∈ collectKeys rels := by
    apply mem_collectKeys
    have hpos : 0 < (rels.filter (fun r => relKey r == f ++ "-" ++ t)).length := by omega
    obtain ⟨r, hr⟩ := List.exists_mem_of_length_pos hpos
    have hrr := List.mem_filter.mp hr
    exact ⟨r, hrr.1, by simpa using hrr.2⟩
  obtain ⟨l1, l2, hsplit⟩ := List.mem_iff_append.mp hkmem
  have hnodup := collectKeys_nodup rels
  rw [hsplit] at hnodup
  have hknotl1 : (f ++ "-" ++ t) ∉ l1 := by
    have hdisj := List.disjoint_of_nodup_append hnodup
    exact fun hm => hdisj hm (List.mem_cons_self _ _)
  have hknotl2 : (f ++ "-" ++ t) ∉ l2 := by
    have hn2 : ((f ++ "-" ++ t) :: l2).Nodup := (List.nodup_append.mp hnodup).2.1
    exact (List.nodup_cons.mp hn2).1
  have hinit : EdgeInv (docs.map Prod.fst) f t N ([], []) false :=
    ⟨rfl, by simp, by simp, by simp⟩
  have hinv1 := foldl_edgeStep_no_k (docs.map Prod.fst) rels f t N false h4 l1
    ([], []) hknotl1 hinit
  have hinv2 := edgeStep_emits_pair (docs.map Prod.fst) rels f t N _
    hN hlen h2 hf ht h5 hinv1
  have hinv3 := foldl_edgeStep_no_k (docs.map Prod.fst) rels f t N true h4 l2
    _ hknotl2 hinv2
  have hedges : (createSchemaGraph docs rels exp).2 =
      ((collectKeys rels).foldl (edgeStep (docs.map Prod.fst) rels) ([], [])).1 := rfl
  rw [hedges, hsplit, List.foldl_append, List.foldl_cons]
  obtain ⟨_, _, hC, hD⟩ := hinv3
  exact ⟨by simpa using hD, hC⟩


theorem dedup_multiple_edge_witness :
    (2 ≤ 2 ∧
     (c4wRels.filter (fun r => r.from_ == "b.json" && r.to_ == "a.json")).length = 2 ∧
     (∀ r ∈ c4wRels, relKey r = "b.json" ++ "-" ++ "a.json" →
        r.from_ = "b.json" ∧ r.to_ = "a.json") ∧
     "b.json" ∈ c4wDocs.map Prod.fst ∧ "a.json" ∈ c4wDocs.map Prod.fst ∧
     (∀ r ∈ c4wRels, ¬(r.from_ = "b.json" ∧ r.to_ = "a.json") →
        ¬(resolveNode (c4wDocs.map Prod.fst) r.from_ = "b.json" ∧
          resolveNode (c4wDocs.map Prod.fst) r.to_ = "a.json")) ∧
     (∀ a ∈ c4wDocs.map Prod.fst, ∀ b ∈ c4wDocs.map Prod.fst,
        a ++ "-" ++ b = "b.json" ++ "-" ++ "a.json" → a = "b.json" ∧ b = "a.json")) ∧
    (((createSchemaGraph c4wDocs c4wRels []).2.filter
        (fun e => e.source == "b.json" && e.target == "a.json")).length = 1 ∧
     ∀ e ∈ (createSchemaGraph c4wDocs c4wRels []).2,
       e.source = "b.json" → e.target = "a.json" →
       e.data.count = 2 ∧ e.data.type = RelType.multiple) :=
  ⟨⟨by decide, by decide, by decide, by decide, by decide, by decide, by decide⟩,
   dedup_multiple_edge c4wDocs c4wRels [] "b.json" "a.json" 2
     (by decide) (by decide) (by decide) (by decide) (by decide) (by decide) (by decide)⟩
